import Mathlib

/-!
# Verification of the `redirt` directory tool

A shallow embedding of the core of the `redirt` repository:

* the tree walker of `src/walk.rs` (work-stack machine `WWMemory` with
  `scan_dir`, `scan_entry`, `next_task`, `pump`, driven by
  `WalkBuilder::walk_worker`),
* the tree differ of `src/diff.rs` (`TreeDiff::find_next` and
  `files_are_identical`),
* the per-entry synchronizer logic of `src/commands/copy.rs`
  (`CopyCmd::run`).

File names are modelled as byte sequences (`List Nat`), matching the
byte-wise ordering Rust uses on `OsString`; relative paths are segment
lists ordered lexicographically, matching `PathBuf`'s component-wise
`Ord`.  Timestamps are abstract (`Option Nat`), file contents are byte
lists, and the file system visible to a walk is an immutable tree.
`io::Error` values are abstracted to numeric codes.
-/

/-- A single path segment (file name), as its byte sequence. -/
abbrev FName := List Nat

/-- A relative path: the list of segments from the walk root.
Ordered by the Mathlib lexicographic order on lists, which agrees with
Rust's `PathBuf` component-wise ordering. -/
abbrev RelPath := List FName

/-- Path `d` is an ancestor-or-self of `p`: `p` extends `d`. -/
def underDir (d p : RelPath) : Prop := ∃ r, p = d ++ r

/-- Path `p` strictly extends `d` (a proper descendant path). -/
def strictUnder (d p : RelPath) : Prop := ∃ r, r ≠ [] ∧ p = d ++ r

/-- File types distinguished by the tool: regular file, directory, or
anything else (symlink, socket, ...). -/
inductive FType where
  | file
  | dir
  | other
deriving DecidableEq, Repr

/-- The `WalkEntry` record from `src/walk.rs`: one filesystem object discovered in a
walk.  `path` is relative to the walk root; `size` is `meta.len()`;
`mtime`/`ctime` are `meta.modified().ok()` / `meta.created().ok()`. -/
structure WalkEntry where
  path : RelPath
  file_type : FType
  size : Nat
  mtime : Option Nat
  ctime : Option Nat
deriving DecidableEq, Repr

/-- The `DiffEntry` variants from `src/diff.rs`. -/
inductive DiffEntry where
  /-- A file is present in both trees. -/
  | Present (src tgt : WalkEntry)
  /-- A file has been added in the source tree. -/
  | Added (src : WalkEntry)
  /-- A file has been removed in the source tree. -/
  | Removed (tgt : WalkEntry)
  /-- A file has been modified in the source tree. -/
  | Modified (src tgt : WalkEntry) (ch_type ch_mtime ch_size ch_content : Bool)
deriving DecidableEq, Repr

/-- The relative path a `DiffEntry` is about.  For matched pairs both
stored entries have the same path. -/
def DiffEntry.path : DiffEntry → RelPath
  | .Present src _ => src.path
  | .Added src => src.path
  | .Removed tgt => tgt.path
  | .Modified src _ _ _ _ _ => src.path

/-- A file system visible to `File::open`: a map from a path to
the byte content of the regular file stored there.  `files_are_identical`
receives paths that are resolved by the OS against the process working
directory, so the map's domain is interpreted as working-directory
relative paths. -/
def OpenFS := RelPath → Option (List Nat)

/-- The byte-comparison loop of `files_are_identical` (`src/diff.rs`):
read both streams in lock step, fail on the first mismatch, including a
length mismatch. -/
def bytes_eq : List Nat → List Nat → Bool
  | [], [] => true
  | b1 :: r1, b2 :: r2 => if b1 = b2 then bytes_eq r1 r2 else false
  | _, _ => false

/-- The function `files_are_identical` from `src/diff.rs`: open the two paths
(`File::open` resolves them against the working directory, yielding an
`io::Error` if they do not exist) and compare byte streams in lock
step. -/
def files_are_identical (fs : OpenFS) (f1 f2 : RelPath) : Except Nat Bool := do
  let c1 ← match fs f1 with
    | some c => Except.ok c
    | none => Except.error 2
  let c2 ← match fs f2 with
    | some c => Except.ok c
    | none => Except.error 2
  Except.ok (bytes_eq c1 c2)

deriving instance DecidableEq for Except

/-- State of `TreeDiff` (`src/diff.rs`): the two walker outputs still to
be pulled (`Result` items delivered on the walkers' channels) and the
one-element lookaheads `s_cur` / `t_cur`. -/
structure DiffState where
  s_rest : List (Except Nat WalkEntry)
  t_rest : List (Except Nat WalkEntry)
  s_cur : Option WalkEntry
  t_cur : Option WalkEntry
deriving DecidableEq

/-- Embedding of `self.src.next().transpose()?`: pull the next item from one walker,
propagating a walk error immediately. -/
def pullEntry : List (Except Nat WalkEntry) →
    Except Nat (Option WalkEntry × List (Except Nat WalkEntry))
  | [] => .ok (none, [])
  | .error e :: _ => .error e
  | .ok w :: rest => .ok (some w, rest)

/-- The method `TreeDiff::find_next` (`src/diff.rs`).  Fill the two lookaheads,
compare paths, and classify.  The `let (tgt, src) = match ...` binding in
the source assigns the source-side entry to the variable named `tgt` and
the target-side entry to the variable named `src`; this embedding mirrors
those bindings exactly, including the resulting field swap for matched
pairs.  The content check calls `files_are_identical` on the two entries'
(relative) paths. -/
def find_next (check_content : Bool) (fs : OpenFS) (st : DiffState) :
    Except Nat (Option DiffEntry × DiffState) := do
  let (s_cur, s_rest) ←
    match st.s_cur with
    | some w => Except.ok (some w, st.s_rest)
    | none => pullEntry st.s_rest
  let (t_cur, t_rest) ←
    match st.t_cur with
    | some w => Except.ok (some w, st.t_rest)
    | none => pullEntry st.t_rest
  let spath := s_cur.map (·.path)
  let tpath := t_cur.map (·.path)
  -- `let (tgt, src) = match (spath, tpath) { ... }`, with the lookahead
  -- `take()`s reflected in the remaining state.
  let (tgtv, srcv, s_keep, t_keep) :=
    match spath, tpath with
    | none, none => (none, none, none, none)
    | none, some _ => ((none : Option WalkEntry), t_cur, s_cur, none)
    | some _, none => (s_cur, (none : Option WalkEntry), none, t_cur)
    | some sp, some tp =>
      if sp < tp then (s_cur, none, none, t_cur)
      else if tp < sp then (none, t_cur, s_cur, none)
      else (s_cur, t_cur, none, none)
  let st' : DiffState := ⟨s_rest, t_rest, s_keep, t_keep⟩
  -- `let res = match (tgt, src) { ... }`
  match tgtv, srcv with
  | none, none => Except.ok (none, st')
  | some src, none => Except.ok (some (.Added src), st')
  | none, some tgt => Except.ok (some (.Removed tgt), st')
  | some tgt, some src => do
    let ch_type := src.file_type ≠ tgt.file_type
    let ch_mtime := src.mtime ≠ tgt.mtime
    let ch_size := src.size ≠ tgt.size
    if ch_type ∨ ch_mtime ∨ ch_size then
      Except.ok (some (.Modified src tgt ch_type ch_mtime ch_size false), st')
    -- `self.check_content && !files_are_identical(..)?`: the `&&` is
    -- short-circuiting, so the files are opened only when
    -- `check_content` is enabled.
    else if check_content then do
      let ident ← files_are_identical fs src.path tgt.path
      if ¬ ident then
        Except.ok (some (.Modified src tgt false false false true), st')
      else
        Except.ok (some (.Present src tgt), st')
    else
      Except.ok (some (.Present src tgt), st')

/-- Driving the `TreeDiff` iterator to completion: repeatedly call
`find_next` until it yields `None` (both walks exhausted) or an error,
which is delivered as the final item (`find_next().transpose()` in
`Iterator::next`).  `fuel` bounds the number of steps; any fuel at least
the total number of pending input items is enough. -/
def run_diff (check_content : Bool) (fs : OpenFS) :
    Nat → DiffState → List (Except Nat DiffEntry)
  | 0, _ => []
  | fuel + 1, st =>
    match find_next check_content fs st with
    | .error e => [.error e]
    | .ok (none, _) => []
    | .ok (some d, st') => .ok d :: run_diff check_content fs fuel st'

/-- Initial differ state for two walker output sequences. -/
def diffStart (src tgt : List (Except Nat WalkEntry)) : DiffState :=
  ⟨src, tgt, none, none⟩

/-! ## The tree walker (`src/walk.rs`)

The walker runs on a worker thread (`WalkBuilder::walk_worker`), keeping
an explicit stack of work items (`WWMemory`) and sending produced
entries over a bounded channel.  The file system it traverses is
modelled as an immutable tree (`FNode`); a work item that names a
directory carries the directory's node alongside its relative path,
which is exactly the information `read_dir(root.join(path))` recovers
from the immutable tree.  The model contains no symlinks, so the two
stat branches of `scan_entry` (`fs::metadata` versus `entry.metadata()`)
coincide and the `follow_symlinks` option is irrelevant; `buf_size` only
controls channel backpressure, never the produced sequence. -/

/-- The `DirPosition` option from `src/walk.rs`: when a directory's own entry is
emitted relative to its children. -/
inductive DirPosition where
  | First
  | Last
  | Never
deriving DecidableEq, Repr

/-- The walk configuration of `WalkBuilder` (`src/walk.rs`) that affects
the produced sequence: `include_hidden` and `dirs`.  The `root` is the
tree the run is started on, and `buf_size` / `follow_symlinks` do not
affect the output in the symlink-free model (see the section comment). -/
structure WalkBuilder where
  include_hidden : Bool
  dirs : DirPosition
deriving DecidableEq, Repr

/-- An immutable file tree.  `unreadableDir` stats as a directory whose
listing (`read_dir`) fails with the given `io::Error` code; `statFail`
is an entry whose `metadata()` call fails. -/
inductive FNode where
  | file (size : Nat) (mtime ctime : Option Nat)
  | other (size : Nat) (mtime ctime : Option Nat)
  | dir (mtime ctime : Option Nat) (children : List (FName × FNode))
  | unreadableDir (e : Nat)
  | statFail (e : Nat)

mutual
/-- Well-formedness of a file tree: the names within one directory are
distinct, as they are in a real directory listing. -/
def FNode.wfB : FNode → Bool
  | .dir _ _ cs => decide ((cs.map Prod.fst).Nodup) && wfChildrenB cs
  | _ => true

def wfChildrenB : List (FName × FNode) → Bool
  | [] => true
  | c :: cs => FNode.wfB c.2 && wfChildrenB cs
end

/-- The predicate `is_hidden` from `src/fsutils/unix.rs`: the name starts with a dot
(byte 46). -/
def is_hidden (name : FName) : Bool :=
  match name with
  | 46 :: _ => true
  | _ => false

/-- The stat data of a node: what `scan_entry` reads from `metadata()`
(file type, `len()`, `modified().ok()`, `created().ok()`). -/
def statNode : FNode → Except Nat (FType × Nat × Option Nat × Option Nat)
  | .file sz mt ct => .ok (.file, sz, mt, ct)
  | .other sz mt ct => .ok (.other, sz, mt, ct)
  | .dir mt ct _ => .ok (.dir, 0, mt, ct)
  | .unreadableDir _ => .ok (.dir, 0, none, none)
  | .statFail e => .error e

/-- The `WEntry` work items from `src/walk.rs`: an item on the walk worker's stack.
The head of the list is the top of the stack. -/
inductive WEntry where
  | ScanDir (path : RelPath) (node : FNode)
  | Emit (w : WalkEntry)
  | Process (dir : RelPath) (entries : List (FName × FNode))

/-- The `WTask` variants from `src/walk.rs`: a single unit of work chosen by
`next_task`. -/
inductive WTask where
  | ScanDir (path : RelPath) (node : FNode)
  | Emit (w : WalkEntry)
  | Process (dir : RelPath) (name : FName) (node : FNode)
  | Noop
  | Finished

/-- The method `WWMemory::next_task` (`src/walk.rs`): pop the top work item; a
`Process` item yields its front directory entry and is pushed back with
the remaining queue. -/
def next_task : List WEntry → WTask × List WEntry
  | [] => (.Finished, [])
  | .ScanDir p n :: rest => (.ScanDir p n, rest)
  | .Emit w :: rest => (.Emit w, rest)
  | .Process d entries :: rest =>
    match entries with
    | [] => (.Noop, rest)
    | e :: es => (.Process d e.1 e.2, .Process d es :: rest)

/-- Ordering used to model `entries.sort_by_key(|e| e.file_name())`:
compare directory entries by name.  (Rust's stable slice sort is
modelled by insertion sort, which is also stable and has the same
sorted-permutation specification.) -/
def childLE (a b : FName × FNode) : Prop := a.1 ≤ b.1

instance : DecidableRel childLE := fun a b =>
  inferInstanceAs (Decidable (a.1 ≤ b.1))

instance : IsTotal (FName × FNode) childLE :=
  ⟨fun a b => le_total a.1 b.1⟩

instance : IsTrans (FName × FNode) childLE :=
  ⟨fun _ _ _ h1 h2 => le_trans h1 h2⟩

/-- The method `WWMemory::scan_dir` (`src/walk.rs`): list a directory, keep an
entry when `include_hidden || !is_hidden(entry)`, and sort the kept
entries by file name.  Listing a directory that cannot be read fails
with its `io::Error`; listing a non-directory fails with `ENOTDIR`
(code 20). -/
def scan_dir (cfg : WalkBuilder) (node : FNode) : Except Nat (List (FName × FNode)) :=
  match node with
  | .dir _ _ cs =>
    .ok (List.insertionSort childLE
      (cs.filter (fun c => cfg.include_hidden || ! is_hidden c.1)))
  | .unreadableDir e => .error e
  | _ => .error 20

/-- The method `WWMemory::scan_entry` (`src/walk.rs`): stat one directory entry and
build its `WalkEntry`.  For a directory, a `ScanDir` item is pushed (and,
when `dirs = Last`, an `Emit` item is pushed first, so that it surfaces
only after the directory has been fully processed); the directory's own
entry is returned for immediate emission only when `dirs = First`.
Returns the optional entry to send now together with the items pushed
onto the stack (head = new top of stack). -/
def scan_entry (cfg : WalkBuilder) (dir : RelPath) (name : FName) (node : FNode) :
    Except Nat (Option WalkEntry × List WEntry) := do
  let (ft, sz, mt, ct) ← statNode node
  let path := dir ++ [name]
  let w : WalkEntry := ⟨path, ft, sz, mt, ct⟩
  if ft = .dir then
    let pushes := [WEntry.ScanDir path node] ++
      (if cfg.dirs = .Last then [WEntry.Emit w] else [])
    let w' := if cfg.dirs = .First then some w else none
    .ok (w', pushes)
  else
    .ok (some w, [])

/-- The panic messages of the `expect` calls in `src/walk.rs`. -/
inductive PanicMsg where
  | receiver_hung_up
  | receiver_disconnected
deriving DecidableEq, Repr

/-- Result of one `WWMemory::pump` step: an entry was sent, nothing was
sent, the walk is finished, or the worker panicked because a send on the
hand-off channel failed. -/
inductive PumpStep where
  | Sent (w : WalkEntry) (stack : List WEntry)
  | Quiet (stack : List WEntry)
  | Finished
  | Panicked (msg : PanicMsg)

/-- The method `WWMemory::pump` (`src/walk.rs`).  `receiver_alive` models the state
of the consumer end of the bounded channel: `SyncSender::send` succeeds
exactly when the receiver has not been dropped, and both send sites are
wrapped in `.expect("receiver hung up")`, which panics when the send
fails. -/
def pump (cfg : WalkBuilder) (receiver_alive : Bool) (stack : List WEntry) :
    Except Nat PumpStep :=
  match next_task stack with
  | (.ScanDir p node, rest) =>
    match scan_dir cfg node with
    | .error e => .error e
    | .ok entries => .ok (.Quiet (WEntry.Process p entries :: rest))
  | (.Emit w, rest) =>
    if receiver_alive then .ok (.Sent w rest)
    else .ok (.Panicked .receiver_hung_up)
  | (.Process d name node, rest) =>
    match scan_entry cfg d name node with
    | .error e => .error e
    | .ok (some w, pushes) =>
      if receiver_alive then .ok (.Sent w (pushes ++ rest))
      else .ok (.Panicked .receiver_hung_up)
    | .ok (none, pushes) => .ok (.Quiet (pushes ++ rest))
  | (.Noop, rest) => .ok (.Quiet rest)
  | (.Finished, _) => .ok .Finished

/-- The loop of `WalkBuilder::walk_worker` (`src/walk.rs`), run with a
live consumer: pump repeatedly; on `Err(e)` send the error as the final
item and stop; on a finished stack stop.  The sequence of values sent on
the channel (in FIFO order, as the consumer receives them) is returned.
`fuel` bounds the number of pump steps; the theorems below hold for
every fuel, and enough fuel always exists for finite trees. -/
def walk_worker_run (cfg : WalkBuilder) : Nat → List WEntry → List (Except Nat WalkEntry)
  | 0, _ => []
  | fuel + 1, stack =>
    match pump cfg true stack with
    | .error e => [.error e]
    | .ok (.Sent w st') => .ok w :: walk_worker_run cfg fuel st'
    | .ok (.Quiet st') => walk_worker_run cfg fuel st'
    | .ok .Finished => []
    | .ok (.Panicked _) => []

/-- A complete walk: the worker's stack is seeded with
`ScanDir(PathBuf::new())`, i.e. the root directory under the empty
relative path. -/
def walkList (cfg : WalkBuilder) (fuel : Nat) (root : FNode) :
    List (Except Nat WalkEntry) :=
  walk_worker_run cfg fuel [WEntry.ScanDir [] root]

/-- The relative paths of the successfully delivered entries of a walk,
in order. -/
def okPaths (xs : List (Except Nat WalkEntry)) : List RelPath :=
  xs.filterMap fun x =>
    match x with
    | .ok w => some w.path
    | .error _ => none

/-! ## The synchronizer (`src/commands/copy.rs`)

`CopyCmd::run` walks source and destination, diffs the walks, and
applies each `DiffEntry` to the destination tree in order.  The
per-entry behaviour is embedded as the sequence of filesystem mutation
operations issued, the counter increments, and the optional error that
aborts the loop (`return Err(...)`). -/

/-- A filesystem mutation primitive.  `write_temp` and `rename` are the
operations a write-to-temporary-then-rename copy would issue; they are
part of the vocabulary so that their absence from the code's traces can
be stated. -/
inductive FSOp where
  | create_dir (path : RelPath)
  | copy (src dst : RelPath)
  | remove_dir_all (path : RelPath)
  | remove_file (path : RelPath)
  | write_temp (path : RelPath)
  | rename (src dst : RelPath)
deriving DecidableEq, Repr

/-- The two `anyhow!` errors of `CopyCmd::run`: "unsupported file"
(for an `Added` entry of unsupported type) and "unsupported file type"
(for a `Modified` entry whose source side is not a regular file). -/
inductive CopyErr where
  | unsupported_file
  | unsupported_file_type
deriving DecidableEq, Repr

/-- Outcome of processing one `DiffEntry` in `CopyCmd::run`: the
filesystem operations performed (in order), the error that aborts the
run, if any, and the increments of the `n_files` / `n_dirs` counters. -/
structure StepResult where
  ops : List FSOp
  err : Option CopyErr
  files : Nat
  dirs : Nat
deriving DecidableEq, Repr

/-- The per-entry body of the `for entry in diff` loop of
`CopyCmd::run` (`src/commands/copy.rs`).  `src_root` and `dst_root` are
`self.src` and `self.dst`; `self.dst.join(p)` is `dst_root ++ p`. -/
def process_entry (src_root dst_root : RelPath) (entry : DiffEntry) : StepResult :=
  match entry with
  | .Present _ _ => ⟨[], none, 0, 0⟩
  | .Added src =>
    if src.file_type = .dir then
      ⟨[.create_dir (dst_root ++ src.path)], none, 0, 1⟩
    else if src.file_type = .file then
      ⟨[.copy (src_root ++ src.path) (dst_root ++ src.path)], none, 1, 0⟩
    else
      ⟨[], some .unsupported_file, 0, 0⟩
  | .Removed _ => ⟨[], none, 0, 0⟩
  | .Modified src tgt ch_type _ _ _ =>
    let dst_path := dst_root ++ tgt.path
    let (ops1, dirs1) :=
      if ch_type then
        ((if tgt.file_type = .dir then [FSOp.remove_dir_all dst_path]
          else [FSOp.remove_file dst_path]) ++
         (if src.file_type = .dir then [FSOp.create_dir dst_path] else []),
         if src.file_type = .dir then (1 : Nat) else 0)
      else ([], 0)
    if src.file_type ≠ .file then
      ⟨ops1, some .unsupported_file_type, 0, dirs1⟩
    else
      ⟨ops1 ++ [FSOp.copy (src_root ++ src.path) dst_path], none, 1, dirs1⟩

/-- Whether an operation is a rename (the atomic-commit step of a
write-to-temporary-then-rename copy). -/
def FSOp.isRename : FSOp → Bool
  | .rename _ _ => true
  | _ => false

/-- Whether an operation writes a temporary file. -/
def FSOp.isWriteTemp : FSOp → Bool
  | .write_temp _ => true
  | _ => false

/-! ## Derived notions used in the statements -/

/-- The successfully delivered diff entries of a differ run. -/
def okDiff (xs : List (Except Nat DiffEntry)) : List DiffEntry :=
  xs.filterMap fun x =>
    match x with
    | .ok d => some d
    | .error _ => none

/-- The relative paths of the successfully delivered diff entries. -/
def okDiffPaths (xs : List (Except Nat DiffEntry)) : List RelPath :=
  (okDiff xs).map DiffEntry.path

def DiffEntry.isAdded : DiffEntry → Bool
  | .Added _ => true
  | _ => false

def DiffEntry.isRemoved : DiffEntry → Bool
  | .Removed _ => true
  | _ => false

def DiffEntry.isPresent : DiffEntry → Bool
  | .Present _ _ => true
  | _ => false

def DiffEntry.isModified : DiffEntry → Bool
  | .Modified _ _ _ _ _ _ => true
  | _ => false

/-- The paths of the entries of one variant in a diff output. -/
def variantPaths (v : DiffEntry → Bool) (ds : List DiffEntry) : List RelPath :=
  (ds.filter v).map DiffEntry.path

/-- Sorted union of two path lists: the reference merge that the differ's
output is proved to follow.  Keeps one copy of a path occurring on both
sides. -/
def mergeUnion : List RelPath → List RelPath → List RelPath
  | [], ys => ys
  | xs, [] => xs
  | x :: xs, y :: ys =>
    if x < y then x :: mergeUnion xs (y :: ys)
    else if y < x then y :: mergeUnion (x :: xs) ys
    else x :: mergeUnion xs ys
termination_by xs ys => xs.length + ys.length

/-- The path carried by a differ lookahead slot. -/
def optPaths : Option WalkEntry → List RelPath
  | none => []
  | some w => [w.path]

/-! Invariant machinery for the walker proofs. -/

/-- Upper approximation of the relative paths a stack item can still
cause to be emitted: an `Emit` item emits exactly its entry; everything
produced from a `ScanDir d` item lies strictly under `d`; everything
produced from a `Process d entries` item lies under `d ++ [name]` for
one of the queued entry names. -/
def itemUB : WEntry → RelPath → Prop
  | .Emit w => fun p => p = w.path
  | .ScanDir d _ => fun p => strictUnder d p
  | .Process d entries => fun p => ∃ c ∈ entries, underDir (d ++ [c.1]) p

/-- Internal well-formedness of a stack item: directory nodes on the
stack are well-formed trees, and a `Process` queue is strictly sorted by
name with well-formed children. -/
def itemWF : WEntry → Prop
  | .Emit _ => True
  | .ScanDir _ node => node.wfB = true
  | .Process _ entries =>
      entries.Pairwise (fun a b => a.1 < b.1) ∧ ∀ c ∈ entries, (c.2).wfB = true

/-- Relation `loLt lo p`: `p` is above the last emitted path (if any). -/
def loLt : Option RelPath → RelPath → Prop
  | none, _ => True
  | some q, p => q < p

/-- The walker invariant: each stack item is well formed and can only
emit paths above the last emitted one, and items deeper in the stack can
only emit paths above everything an earlier item can emit. -/
def StackInv (lo : Option RelPath) (stack : List WEntry) : Prop :=
  (∀ i ∈ stack, itemWF i ∧ ∀ p, itemUB i p → loLt lo p) ∧
  stack.Pairwise (fun i j => ∀ p q, itemUB i p → itemUB j q → p < q)

/-- Stack items that are `Emit` entries have non-empty relative paths
(used for the no-root-entry claim). -/
def WEntry.emitsOK : WEntry → Prop
  | .Emit w => w.path ≠ []
  | _ => True

/-! Concrete inputs used by witnesses and counterexamples. -/

def cfgFirst : WalkBuilder := ⟨true, .First⟩
def cfgLast : WalkBuilder := ⟨true, .Last⟩
def cfgNever : WalkBuilder := ⟨true, .Never⟩

/-- A tree whose subdirectory `[2]` cannot be listed (`read_dir` fails
with code 13). -/
def badTree : FNode :=
  .dir none none [([1], .file 1 none none), ([2], .unreadableDir 13)]

/-- Source-side entry for the matched-pair examples (path `[1]`). -/
def cwA : WalkEntry := ⟨[[1]], .file, 1, some 1, none⟩
/-- Target-side entry with the same path but different size. -/
def cwB : WalkEntry := ⟨[[1]], .file, 2, some 1, none⟩

/-- A target-only entry with path `[2]`, used in the C6 witness. -/
def cwC : WalkEntry := ⟨[[2]], .file, 1, some 1, none⟩

/-- A matched pair of directories differing only in mtime. -/
def dirA : WalkEntry := ⟨[[7]], .dir, 0, some 1, none⟩
def dirB : WalkEntry := ⟨[[7]], .dir, 0, some 2, none⟩

/-- Matched regular-file entries with identical metadata, used for the
content-check claim: path `[6]`, size 1, mtime 9 on both sides. -/
def fA : WalkEntry := ⟨[[6]], .file, 1, some 9, none⟩
def fB : WalkEntry := ⟨[[6]], .file, 1, some 9, none⟩

/-- The file system as seen from the process working directory when the
tool is run from inside the source root: the source copy of `[6]` holds
byte `1`.  The target copy of `[6]` (not reachable at this relative
path) holds byte `2`. -/
def cwdFS : OpenFS := fun p => if p = [[6]] then some [1] else none

/-- Content of the target tree's copy of file `[6]`. -/
def tgtContentOfF : List Nat := [2]

/-- An `Added` regular file used in the synchronizer claims. -/
def addedFile : WalkEntry := ⟨[[5]], .file, 3, some 4, none⟩

/-- A `Modified` pair whose type changed: source side directory, target
side regular file. -/
def modSrcDir : WalkEntry := ⟨[[8]], .dir, 0, some 1, none⟩
def modTgtFile : WalkEntry := ⟨[[8]], .file, 5, some 2, none⟩

-- sanity checks (concrete evaluation)
example :
    find_next false (fun _ => none)
      (diffStart [.ok ⟨[[1]], .file, 3, some 5, none⟩] []) =
    .ok (some (.Added ⟨[[1]], .file, 3, some 5, none⟩), ⟨[], [], none, none⟩) := by
  decide

example :
    find_next false (fun _ => none)
      (diffStart [] [.ok ⟨[[1]], .file, 3, some 5, none⟩]) =
    .ok (some (.Removed ⟨[[1]], .file, 3, some 5, none⟩), ⟨[], [], none, none⟩) := by
  decide

/-- The walk-order scenario of the spec: root with files `a`, `b` and a
subdirectory `c` containing `d`. -/
def exTree : FNode :=
  .dir none none
    [([1], .file 1 none none), ([2], .file 2 none none),
     ([3], .dir none none [([4], .file 3 none none)])]

example :
    okPaths (walkList ⟨true, .First⟩ 20 exTree) = [[[1]], [[2]], [[3]], [[3], [4]]] := by
  decide

example :
    okPaths (walkList ⟨true, .Last⟩ 20 exTree) = [[[1]], [[2]], [[3], [4]], [[3]]] := by
  decide

example :
    okPaths (walkList ⟨true, .Never⟩ 20 exTree) = [[[1]], [[2]], [[3], [4]]] := by
  decide

example :
    find_next true (fun _ => none) ⟨[], [], some cwA, some cwB⟩ =
      .ok (some (.Modified cwB cwA false false true false), ⟨[], [], none, none⟩) := by
  rfl

/-! ## C2: the synchronizer's copy mechanism -/

/-- C2 counterexample: for a concrete `Added` regular file, the
synchronizer issues a single direct `fs::copy` onto the final
destination path; its operation trace contains no temporary-file write
and no rename, contrary to the claimed
write-to-temporary-then-atomic-rename sequence. -/
theorem c2_copy_not_atomic :
    (process_entry [[1]] [[2]] (.Added addedFile)).ops =
      [.copy [[1], [5]] [[2], [5]]] ∧
    ((process_entry [[1]] [[2]] (.Added addedFile)).ops.any
      fun op => op.isRename || op.isWriteTemp) = false := by
  constructor <;> rfl

/-- C2 (amended): for every `Added` regular file the synchronizer's
trace is exactly one direct copy onto the final destination path, and
for every `Modified` entry whose source side is a regular file the trace
ends with a direct copy onto the final destination path; no trace
contains a temporary-file write or a rename. -/
theorem copy_is_direct (sr dr : RelPath) (s t : WalkEntry)
    (cht chm chs chc : Bool) (hf : s.file_type = .file) :
    (process_entry sr dr (.Added s)).ops =
      [.copy (sr ++ s.path) (dr ++ s.path)] ∧
    (process_entry sr dr (.Modified s t cht chm chs chc)).ops.getLast? =
      some (.copy (sr ++ s.path) (dr ++ t.path)) ∧
    ((process_entry sr dr (.Added s)).ops.any
      fun op => op.isRename || op.isWriteTemp) = false ∧
    ((process_entry sr dr (.Modified s t cht chm chs chc)).ops.any
      fun op => op.isRename || op.isWriteTemp) = false := by
  refine ⟨?_, ?_, ?_, ?_⟩ <;>
    · simp only [process_entry, hf]
      cases cht <;> cases t.file_type <;>
        simp [FSOp.isRename, FSOp.isWriteTemp, List.getLast?_append]

/-- C2 witness. -/
theorem copy_is_direct_witness :
    addedFile.file_type = .file ∧
    (process_entry [[1]] [[2]] (.Added addedFile)).ops =
      [.copy ([[1]] ++ addedFile.path) ([[2]] ++ addedFile.path)] :=
  ⟨rfl, (copy_is_direct [[1]] [[2]] addedFile addedFile true true true true rfl).1⟩

/-! ## C4: Modified entry with changed type and directory source -/

/-- C4: the code's behaviour on a `Modified` entry with
`ch_type = true` whose source side is a directory: the destination file
is removed and the directory is recreated, but then the unconditional
`if !src.is_file()` check fails the entry with "unsupported file type",
so the synchronizer stops instead of continuing with the next entry. -/
theorem c4_dir_retype_errors :
    process_entry [[0]] [[9]] (.Modified modSrcDir modTgtFile true false false false) =
      ⟨[.remove_file [[9], [8]], .create_dir [[9], [8]]],
        some .unsupported_file_type, 0, 1⟩ := by
  rfl

/-! ## C8: worker behaviour when the consumer hangs up -/

/-- C8 counterexample: with the receiver dropped, the next pump step
that must send does not stop cleanly; it panics with the message of the
`expect` call ("receiver hung up"). -/
theorem c8_worker_panics :
    pump cfgFirst false [.Emit addedFile] = .ok (.Panicked .receiver_hung_up) := by
  rfl

/-- C8 (amended): whenever a pump step would deliver an entry to a live
consumer, the same step with the consumer's end of the channel dropped
makes the worker panic via `expect("receiver hung up")` — the send is
attempted once and the failure is not treated as a clean stop. -/
theorem pump_panics_when_disconnected (cfg : WalkBuilder) (stack : List WEntry)
    (w : WalkEntry) (st' : List WEntry)
    (h : pump cfg true stack = .ok (.Sent w st')) :
    pump cfg false stack = .ok (.Panicked .receiver_hung_up) := by
  match stack with
  | [] => simp [pump, next_task] at h
  | .ScanDir p node :: rest =>
    cases hsd : scan_dir cfg node <;> simp [pump, next_task, hsd] at h ⊢
  | .Emit w' :: rest => simp [pump, next_task] at h ⊢
  | .Process d [] :: rest => simp [pump, next_task] at h
  | .Process d (c :: es) :: rest =>
    rcases hse : scan_entry cfg d c.1 c.2 with e | ⟨w', pushes⟩
    · simp [pump, next_task, hse] at h
    · cases w' <;> simp [pump, next_task, hse] at h ⊢

/-- C8 witness. -/
theorem pump_panics_when_disconnected_witness :
    pump cfgFirst true [.Emit addedFile] = .ok (.Sent addedFile []) ∧
    pump cfgFirst false [.Emit addedFile] = .ok (.Panicked .receiver_hung_up) :=
  ⟨rfl, pump_panics_when_disconnected cfgFirst [.Emit addedFile] addedFile [] rfl⟩

/-! ## Reduction helpers for `Except` binds -/

theorem except_bind_ok {α β : Type} (x : α) (f : α → Except Nat β) :
    (Except.ok x >>= f) = f x := rfl

theorem except_bind_error {α β : Type} (e : Nat) (f : α → Except Nat β) :
    ((Except.error e : Except Nat α) >>= f) = Except.error e := rfl

/-! ## C5: classification flags of a matched pair -/

/-- C5 counterexample: two matched directories whose modification times
differ are classified as `Modified` with `ch_mtime = true` — the
mtime/size flags are not restricted to matched non-directory pairs. -/
theorem c5_dirs_modified_by_mtime :
    find_next true (fun _ => none) ⟨[], [], some dirA, some dirB⟩ =
      .ok (some (.Modified dirB dirA false true false false), ⟨[], [], none, none⟩) := by
  rfl

/-- C5 (amended): for every matched pair, `ch_type`, `ch_mtime` and
`ch_size` are each computed unconditionally as the corresponding
inequality, with no restriction on the file type; whenever any of the
three holds, the pair is emitted as `Modified` with those flags and
`ch_content = false`, whatever the types are (directories included). -/
theorem diff_flags_unconditional (cc : Bool) (fs : OpenFS)
    (sr tr : List (Except Nat WalkEntry)) (a b : WalkEntry)
    (hpath : a.path = b.path)
    (hne : a.file_type ≠ b.file_type ∨ a.mtime ≠ b.mtime ∨ a.size ≠ b.size) :
    find_next cc fs ⟨sr, tr, some a, some b⟩ =
      .ok (some (.Modified b a (decide (b.file_type ≠ a.file_type))
        (decide (b.mtime ≠ a.mtime)) (decide (b.size ≠ a.size)) false),
        ⟨sr, tr, none, none⟩) := by
  have hsym : b.file_type ≠ a.file_type ∨ b.mtime ≠ a.mtime ∨ b.size ≠ a.size := by
    tauto
  simp only [find_next, except_bind_ok, Option.map_some']
  rw [hpath]
  rw [if_neg (lt_irrefl _), if_neg (lt_irrefl _)]
  dsimp only
  rw [if_pos hsym]

/-- C5 witness: the directory pair differing only in mtime. -/
theorem diff_flags_unconditional_witness :
    dirA.path = dirB.path ∧
    (dirA.file_type ≠ dirB.file_type ∨ dirA.mtime ≠ dirB.mtime ∨
      dirA.size ≠ dirB.size) ∧
    find_next true (fun _ => none) ⟨[], [], some dirA, some dirB⟩ =
      .ok (some (.Modified dirB dirA (decide (dirB.file_type ≠ dirA.file_type))
        (decide (dirB.mtime ≠ dirA.mtime)) (decide (dirB.size ≠ dirA.size)) false),
        ⟨[], [], none, none⟩) :=
  ⟨rfl, by decide,
    diff_flags_unconditional true (fun _ => none) [] [] dirA dirB rfl (by decide)⟩

/-! ## C3: which walk's entry lands in which field -/

/-- C3: for a matched pair the differ stores the entry pulled from the
target walk in the `src` field and the entry pulled from the source walk
in the `tgt` field (the `let (tgt, src) = ...` binding exchanges the
sides), while `Added` carries the source walk's entry and `Removed` the
target walk's entry.  Here `a` is the source-side lookahead and `b` the
target-side lookahead. -/
theorem diff_sides_exchanged (cc : Bool) (fs : OpenFS)
    (sr tr : List (Except Nat WalkEntry)) (a b : WalkEntry)
    (d : DiffEntry) (st' : DiffState)
    (h : find_next cc fs ⟨sr, tr, some a, some b⟩ = .ok (some d, st')) :
    (a.path = b.path →
      (∃ f1 f2 f3 f4, d = .Modified b a f1 f2 f3 f4) ∨ d = .Present b a) ∧
    (a.path < b.path → d = .Added a) ∧
    (b.path < a.path → d = .Removed b) := by
  simp only [find_next, except_bind_ok, Option.map_some'] at h
  refine ⟨?_, ?_, ?_⟩ <;> intro hp
  · rw [hp, if_neg (lt_irrefl _), if_neg (lt_irrefl _)] at h
    dsimp only at h
    by_cases hc : b.file_type ≠ a.file_type ∨ b.mtime ≠ a.mtime ∨ b.size ≠ a.size
    · rw [if_pos hc] at h
      simp only [Except.ok.injEq, Prod.mk.injEq, Option.some.injEq] at h
      exact Or.inl ⟨_, _, _, _, h.1.symm⟩
    · rw [if_neg hc] at h
      by_cases hcc : cc = true
      · rw [if_pos hcc] at h
        rcases hfi : files_are_identical fs b.path a.path with e | idb
        · rw [hfi, except_bind_error] at h
          cases h
        · rw [hfi, except_bind_ok] at h
          by_cases hid : ¬ idb = true
          · rw [if_pos hid] at h
            simp only [Except.ok.injEq, Prod.mk.injEq, Option.some.injEq] at h
            exact Or.inl ⟨_, _, _, _, h.1.symm⟩
          · rw [if_neg hid] at h
            simp only [Except.ok.injEq, Prod.mk.injEq, Option.some.injEq] at h
            exact Or.inr h.1.symm
      · rw [if_neg hcc] at h
        simp only [Except.ok.injEq, Prod.mk.injEq, Option.some.injEq] at h
        exact Or.inr h.1.symm
  · rw [if_pos hp] at h
    dsimp only at h
    simp only [Except.ok.injEq, Prod.mk.injEq, Option.some.injEq] at h
    exact h.1.symm
  · rw [if_neg (asymm hp), if_pos hp] at h
    dsimp only at h
    simp only [Except.ok.injEq, Prod.mk.injEq, Option.some.injEq] at h
    exact h.1.symm

/-- C3 witness: a matched pair differing in size; the emitted `Modified`
entry carries the target entry `cwB` in its `src` field. -/
theorem diff_sides_exchanged_witness :
    find_next false (fun _ => none) ⟨[], [], some cwA, some cwB⟩ =
      .ok (some (.Modified cwB cwA false false true false), ⟨[], [], none, none⟩) ∧
    ((∃ f1 f2 f3 f4,
        DiffEntry.Modified cwB cwA false false true false =
          .Modified cwB cwA f1 f2 f3 f4) ∨
      DiffEntry.Modified cwB cwA false false true false = .Present cwB cwA) :=
  ⟨by rfl,
    (diff_sides_exchanged false (fun _ => none) [] [] cwA cwB
      (.Modified cwB cwA false false true false) ⟨[], [], none, none⟩ (by rfl)).1 rfl⟩

/-! ## C1: the content check compares a file with itself -/

/-- C1: at the failing input, source and target copies of file `[6]`
have identical type, size and mtime but different contents (`[1]` versus
`[2]`).  `files_are_identical` is called on `src.path()` and
`tgt.path()` — the same relative path, resolved against the working
directory (here the source root) — so it compares the source copy with
itself and returns `true`, and the differ emits `Present` for both
`check_content` settings instead of `Modified { ch_content = true }`. -/
theorem c1_content_check_self_compare :
    bytes_eq [1] tgtContentOfF = false ∧
    files_are_identical cwdFS fA.path fB.path = .ok true ∧
    find_next true cwdFS ⟨[], [], some fA, some fB⟩ =
      .ok (some (.Present fB fA), ⟨[], [], none, none⟩) ∧
    find_next false cwdFS ⟨[], [], some fA, some fB⟩ =
      .ok (some (.Present fB fA), ⟨[], [], none, none⟩) :=
  ⟨rfl, by rfl, by rfl, by rfl⟩

/-! ## C9: the first walk error is terminal -/

/-- Helper for C9, generalized over the worker's stack: if an error item
appears anywhere in the delivered sequence, it is the last item, and
everything before it is an entry. -/
theorem run_error_terminal (cfg : WalkBuilder) :
    ∀ (fuel : Nat) (stack : List WEntry) (xs ys : List (Except Nat WalkEntry))
      (e : Nat), walk_worker_run cfg fuel stack = xs ++ .error e :: ys →
      ys = [] ∧ ∀ x ∈ xs, ∃ w, x = .ok w := by
  intro fuel
  induction fuel with
  | zero =>
    intro stack xs ys e h
    rw [walk_worker_run] at h
    exact absurd h.symm (by cases xs <;> simp)
  | succ n ih =>
    intro stack xs ys e h
    rw [walk_worker_run] at h
    rcases hp : pump cfg true stack with e' | step <;> rw [hp] at h
    · rcases xs with _ | ⟨x, xs⟩
      · simp only [List.nil_append, List.cons.injEq] at h
        exact ⟨h.2.symm, fun x hx => absurd hx (List.not_mem_nil x)⟩
      · simp only [List.cons_append, List.cons.injEq] at h
        exact absurd h.2 (by cases xs <;> simp)
    · cases step with
      | Sent w st' =>
        dsimp only at h
        rcases xs with _ | ⟨x, xs⟩
        · simp only [List.nil_append, List.cons.injEq] at h
          exact absurd h.1 (by simp)
        · simp only [List.cons_append, List.cons.injEq] at h
          obtain ⟨hx, hrest⟩ := h
          obtain ⟨hys, hxs⟩ := ih st' xs ys e hrest
          refine ⟨hys, ?_⟩
          intro x' hx'
          rcases List.mem_cons.mp hx' with hx' | hx'
          · exact ⟨w, hx'.trans hx.symm⟩
          · exact hxs x' hx'
      | Quiet st' => exact ih st' xs ys e h
      | Finished =>
        dsimp only at h
        exact absurd h.symm (by cases xs <;> simp)
      | Panicked m =>
        dsimp only at h
        exact absurd h.symm (by cases xs <;> simp)

/-- C9: a walk is fail-fast — if an error is delivered, it is the final
item of the sequence: nothing follows it, and every earlier item is an
ordinary entry (no skip-and-continue). -/
theorem walk_error_terminal (cfg : WalkBuilder) (fuel : Nat) (root : FNode)
    (xs ys : List (Except Nat WalkEntry)) (e : Nat)
    (h : walkList cfg fuel root = xs ++ .error e :: ys) :
    ys = [] ∧ ∀ x ∈ xs, ∃ w, x = .ok w :=
  run_error_terminal cfg fuel [WEntry.ScanDir [] root] xs ys e h

/-- C9 witness: a tree whose subdirectory cannot be listed; the walk
delivers the two entries discovered before the failure and then the
terminal error 13. -/
theorem walk_error_terminal_witness :
    walkList cfgFirst 20 badTree =
      [.ok ⟨[[1]], .file, 1, none, none⟩, .ok ⟨[[2]], .dir, 0, none, none⟩] ++
        .error 13 :: [] ∧
    ([] : List (Except Nat WalkEntry)) = [] :=
  ⟨by rfl,
    (walk_error_terminal cfgFirst 20 badTree
      [.ok ⟨[[1]], .file, 1, none, none⟩, .ok ⟨[[2]], .dir, 0, none, none⟩]
      [] 13 (by rfl)).1⟩

/-! ## C10: the root directory itself is never emitted -/

/-- Helper for C10: the entry produced by `scan_entry` (and any `Emit`
item it pushes) is for the path `dir ++ [name]`, which is non-empty. -/
theorem scan_entry_emits (cfg : WalkBuilder) (d : RelPath) (n : FName)
    (v : FNode) (w : Option WalkEntry) (pushes : List WEntry)
    (h : scan_entry cfg d n v = .ok (w, pushes)) :
    (∀ x, w = some x → x.path = d ++ [n]) ∧ ∀ i ∈ pushes, i.emitsOK := by
  rcases hs : statNode v with e | ⟨ft, sz, mt, ct⟩
  · rw [scan_entry, hs, except_bind_error] at h
    cases h
  · rw [scan_entry, hs, except_bind_ok] at h
    dsimp only at h
    by_cases hd : ft = FType.dir
    · rw [if_pos hd] at h
      simp only [Except.ok.injEq, Prod.mk.injEq] at h
      obtain ⟨hw, hp⟩ := h
      constructor
      · intro x hx
        rw [← hw] at hx
        rcases hdirs : cfg.dirs with _ | _ | _ <;> rw [hdirs] at hx <;>
          simp only [reduceCtorEq, reduceIte, Option.some.injEq] at hx <;>
          rw [← hx]
      · intro i hi
        rw [← hp] at hi
        rcases hdirs : cfg.dirs with _ | _ | _ <;> rw [hdirs] at hi <;>
          simp only [reduceCtorEq, reduceIte, List.mem_append, List.mem_singleton,
            List.cons_append, List.nil_append, List.mem_cons,
            List.not_mem_nil, or_false] at hi
        · rw [hi]; trivial
        · rcases hi with hi | hi <;> rw [hi] <;> simp [WEntry.emitsOK]
        · rw [hi]; trivial
    · rw [if_neg hd] at h
      simp only [Except.ok.injEq, Prod.mk.injEq] at h
      obtain ⟨hw, hp⟩ := h
      constructor
      · intro x hx
        rw [← hw, Option.some.injEq] at hx
        rw [← hx]
      · intro i hi
        rw [← hp] at hi
        cases hi

/-- Helper for C10, generalized over the stack: if every `Emit` item on
the stack has a non-empty path, every delivered entry has a non-empty
path. -/
theorem run_emits_nonempty (cfg : WalkBuilder) :
    ∀ (fuel : Nat) (stack : List WEntry), (∀ i ∈ stack, i.emitsOK) →
      ∀ x ∈ walk_worker_run cfg fuel stack, ∀ w, x = .ok w → w.path ≠ [] := by
  intro fuel
  induction fuel with
  | zero =>
    intro stack _ x hx
    rw [walk_worker_run] at hx
    simp at hx
  | succ n ih =>
    intro stack hinv x hx w hxw
    rw [walk_worker_run] at hx
    match stack, hinv with
    | [], hinv =>
      simp [pump, next_task] at hx
    | .ScanDir p node :: rest, hinv =>
      rcases hsd : scan_dir cfg node with e | entries <;>
        simp only [pump, next_task, hsd] at hx
      · cases hx with
        | head => cases hxw
        | tail _ hx => cases hx
      · refine ih _ ?_ x hx w hxw
        intro i hi
        rcases List.mem_cons.mp hi with hi | hi
        · rw [hi]; trivial
        · exact hinv i (List.mem_cons_of_mem _ hi)
    | .Emit w' :: rest, hinv =>
      simp only [pump, next_task] at hx
      cases hx with
      | head =>
        injection hxw with hww
        rw [← hww]
        exact hinv (.Emit w') (List.mem_cons_self _ _)
      | tail _ hx =>
        exact ih rest (fun i hi => hinv i (List.mem_cons_of_mem _ hi)) x hx w hxw
    | .Process d [] :: rest, hinv =>
      simp only [pump, next_task] at hx
      exact ih rest (fun i hi => hinv i (List.mem_cons_of_mem _ hi)) x hx w hxw
    | .Process d (c :: es) :: rest, hinv =>
      rcases hse : scan_entry cfg d c.1 c.2 with e | ⟨w', pushes⟩
      · simp only [pump, next_task, hse] at hx
        cases hx with
        | head => cases hxw
        | tail _ hx => cases hx
      · obtain ⟨hwpath, hpushes⟩ := scan_entry_emits cfg d c.1 c.2 w' pushes hse
        have hinv' : ∀ i ∈ pushes ++ (WEntry.Process d es :: rest), i.emitsOK := by
          intro i hi
          rcases List.mem_append.mp hi with hi | hi
          · exact hpushes i hi
          · rcases List.mem_cons.mp hi with hi | hi
            · rw [hi]; trivial
            · exact hinv i (List.mem_cons_of_mem _ hi)
        cases w' with
        | none =>
          simp only [pump, next_task, hse] at hx
          exact ih _ hinv' x hx w hxw
        | some x' =>
          simp only [pump, next_task, hse] at hx
          cases hx with
          | head =>
            injection hxw with hww
            rw [← hww, hwpath x' rfl]
            simp
          | tail _ hx => exact ih _ hinv' x hx w hxw

/-- C10: a walk never yields an entry for the root directory itself —
under every directory-emission setting, every delivered entry has a
non-empty relative path. -/
theorem walk_never_emits_root (cfg : WalkBuilder) (fuel : Nat) (root : FNode)
    (x : Except Nat WalkEntry) (hx : x ∈ walkList cfg fuel root)
    (w : WalkEntry) (hxw : x = .ok w) : w.path ≠ [] :=
  run_emits_nonempty cfg fuel [WEntry.ScanDir [] root] (by
    intro i hi
    rw [List.mem_singleton.mp hi]
    trivial) x hx w hxw

/-! ## Path order lemmas -/

/-- A proper descendant path is lexicographically above its ancestor. -/
theorem lt_of_strictUnder (d p : RelPath) (h : strictUnder d p) : d < p := by
  obtain ⟨r, hr, rfl⟩ := h
  induction d with
  | nil =>
    cases r with
    | nil => exact absurd rfl hr
    | cons x xs => exact List.Lex.nil
  | cons a as ih => exact List.Lex.cons ih

theorem lt_of_name_lt (d : RelPath) (n m : FName) (a b : List FName)
    (h : n < m) : (d ++ n :: a) < (d ++ m :: b) :=
  List.Lex.append_left _ (List.Lex.rel h) d

/-- Anything under `d ++ [n]` is lexicographically below anything under
`d ++ [m]` when `n < m`. -/
theorem lt_of_under_names (d : RelPath) (n m : FName) (p q : RelPath)
    (hn : n < m) (hp : underDir (d ++ [n]) p) (hq : underDir (d ++ [m]) q) :
    p < q := by
  obtain ⟨r, rfl⟩ := hp
  obtain ⟨s, rfl⟩ := hq
  rw [List.append_assoc, List.append_assoc, List.singleton_append,
    List.singleton_append]
  exact lt_of_name_lt d n m r s hn

/-! ## Facts about `scan_dir` -/

theorem wfChildrenB_mem (cs : List (FName × FNode)) (h : wfChildrenB cs = true) :
    ∀ c ∈ cs, (c.2).wfB = true := by
  induction cs with
  | nil => intro c hc; cases hc
  | cons a as ih =>
    rw [wfChildrenB, Bool.and_eq_true] at h
    intro c hc
    rcases List.mem_cons.mp hc with hc | hc
    · rw [hc]; exact h.1
    · exact ih h.2 c hc

/-- Scanning a well-formed directory yields a queue that is strictly
sorted by name, whose members come from the directory's children and
are themselves well formed. -/
theorem scan_dir_ok (cfg : WalkBuilder) (node : FNode)
    (entries : List (FName × FNode)) (hwf : node.wfB = true)
    (h : scan_dir cfg node = .ok entries) :
    entries.Pairwise (fun a b => a.1 < b.1) ∧
    ∀ c ∈ entries, (c.2).wfB = true := by
  cases node with
  | file sz mt ct => cases h
  | other sz mt ct => cases h
  | unreadableDir e => cases h
  | statFail e => cases h
  | dir mt ct cs =>
    simp only [scan_dir, Except.ok.injEq] at h
    rw [FNode.wfB, Bool.and_eq_true, decide_eq_true_eq] at hwf
    obtain ⟨hnd, hwfc⟩ := hwf
    subst h
    set fl := cs.filter (fun c => cfg.include_hidden || ! is_hidden c.1) with hfl
    have hsub : fl.Sublist cs := List.filter_sublist cs
    have hperm : (List.insertionSort childLE fl).Perm fl :=
      List.perm_insertionSort childLE fl
    have hmem : ∀ c ∈ List.insertionSort childLE fl, c ∈ cs := by
      intro c hc
      exact hsub.mem (hperm.mem_iff.mp hc)
    have hndfl : (fl.map Prod.fst).Nodup :=
      List.Nodup.sublist (hsub.map Prod.fst) hnd
    have hnds : ((List.insertionSort childLE fl).map Prod.fst).Nodup :=
      ((hperm.map Prod.fst).symm).nodup hndfl
    have hle : (List.insertionSort childLE fl).Pairwise childLE :=
      List.sorted_insertionSort childLE fl
    have hne : (List.insertionSort childLE fl).Pairwise
        (fun a b => a.1 ≠ b.1) := List.pairwise_map.mp hnds
    constructor
    · exact (hle.and hne).imp fun h => lt_of_le_of_ne h.1 h.2
    · intro c hc
      exact wfChildrenB_mem cs hwfc c (hmem c hc)

/-! ## The walker's stack invariant -/

theorem okPaths_cons_ok (w : WalkEntry) (xs : List (Except Nat WalkEntry)) :
    okPaths (.ok w :: xs) = w.path :: okPaths xs := rfl

theorem stackInv_tail (lo : Option RelPath) (i : WEntry) (rest : List WEntry)
    (h : StackInv lo (i :: rest)) : StackInv lo rest :=
  ⟨fun j hj => h.1 j (List.mem_cons_of_mem _ hj), (List.pairwise_cons.mp h.2).2⟩

/-- Replacing the top of the stack by an item that can only emit a
subset of the paths preserves the invariant. -/
theorem stackInv_replace_head (lo : Option RelPath) (i i' : WEntry)
    (rest : List WEntry) (hsub : ∀ p, itemUB i' p → itemUB i p)
    (hwf : itemWF i') (h : StackInv lo (i :: rest)) :
    StackInv lo (i' :: rest) := by
  obtain ⟨hall, hpw⟩ := h
  obtain ⟨hhead, htail⟩ := List.pairwise_cons.mp hpw
  refine ⟨?_, List.pairwise_cons.mpr ⟨?_, htail⟩⟩
  · intro j hj
    rcases List.mem_cons.mp hj with hj | hj
    · subst hj
      exact ⟨hwf, fun p hp => (hall i (List.mem_cons_self _ _)).2 p (hsub p hp)⟩
    · exact hall j (List.mem_cons_of_mem _ hj)
  · intro j hj p q hp hq
    exact hhead j hj p q (hsub p hp) hq

/-- Consuming the top `Emit` item: the emitted path is above the lower
bound, and it becomes the new lower bound for the remaining stack. -/
theorem stackInv_emit (lo : Option RelPath) (w : WalkEntry)
    (rest : List WEntry) (h : StackInv lo (.Emit w :: rest)) :
    loLt lo w.path ∧ StackInv (some w.path) rest := by
  obtain ⟨hall, hpw⟩ := h
  obtain ⟨hhead, htail⟩ := List.pairwise_cons.mp hpw
  refine ⟨(hall _ (List.mem_cons_self _ _)).2 w.path rfl, ?_, htail⟩
  intro j hj
  refine ⟨(hall j (List.mem_cons_of_mem _ hj)).1, ?_⟩
  intro p hp
  exact hhead j hj w.path p rfl hp

/-- The invariant is antitone in the lower bound. -/
theorem stackInv_mono (lo : Option RelPath) (q : RelPath)
    (stack : List WEntry) (hlo : loLt lo q)
    (h : StackInv (some q) stack) : StackInv lo stack := by
  refine ⟨fun i hi => ⟨(h.1 i hi).1, fun p hp => ?_⟩, h.2⟩
  have hq : q < p := (h.1 i hi).2 p hp
  cases lo with
  | none => trivial
  | some x => exact lt_trans hlo hq

/-- Turning a `ScanDir` item into the `Process` item holding its sorted
listing preserves the invariant. -/
theorem stackInv_scan (cfg : WalkBuilder) (lo : Option RelPath)
    (d : RelPath) (node : FNode) (rest : List WEntry)
    (entries : List (FName × FNode))
    (h : StackInv lo (.ScanDir d node :: rest))
    (hok : scan_dir cfg node = .ok entries) :
    StackInv lo (.Process d entries :: rest) := by
  have hwf : itemWF (.ScanDir d node) := (h.1 _ (List.mem_cons_self _ _)).1
  obtain ⟨hsort, hwfc⟩ := scan_dir_ok cfg node entries hwf hok
  refine stackInv_replace_head lo _ _ rest ?_ ⟨hsort, hwfc⟩ h
  intro p hp
  simp only [itemUB, underDir] at hp
  obtain ⟨c, hc, r, hr⟩ := hp
  refine ⟨[c.1] ++ r, by simp, ?_⟩
  rw [hr, List.append_assoc]

/-- Consuming the front entry `(n, v)` of the top `Process` item: its
path `d ++ [n]` is above the lower bound, and both candidate successor
stacks satisfy the invariant with `d ++ [n]` as the new lower bound. -/
theorem stackInv_process (lo : Option RelPath) (d : RelPath) (n : FName)
    (v : FNode) (es : List (FName × FNode)) (rest : List WEntry)
    (h : StackInv lo (.Process d ((n, v) :: es) :: rest)) :
    loLt lo (d ++ [n]) ∧
    StackInv (some (d ++ [n]))
      (.ScanDir (d ++ [n]) v :: .Process d es :: rest) ∧
    StackInv (some (d ++ [n])) (.Process d es :: rest) ∧
    itemWF (.ScanDir (d ++ [n]) v) := by
  obtain ⟨hall, hpw⟩ := h
  obtain ⟨hhead, htail⟩ := List.pairwise_cons.mp hpw
  obtain ⟨hwfP, hboundP⟩ := hall _ (List.mem_cons_self _ _)
  obtain ⟨hsort, hwfc⟩ := hwfP
  have hnlt : ∀ c ∈ es, n < c.1 := by
    intro c hc
    exact (List.pairwise_cons.mp hsort).1 c hc
  have hself : itemUB (.Process d ((n, v) :: es)) (d ++ [n]) :=
    ⟨(n, v), List.mem_cons_self _ _, [], (List.append_nil _).symm⟩
  have hUBfull : ∀ p, itemUB (.Process d es) p →
      itemUB (.Process d ((n, v) :: es)) p := by
    intro p hp
    obtain ⟨c, hc, hu⟩ := hp
    exact ⟨c, List.mem_cons_of_mem _ hc, hu⟩
  have hUBscan : ∀ p, itemUB (.ScanDir (d ++ [n]) v) p →
      itemUB (.Process d ((n, v) :: es)) p := by
    intro p hp
    obtain ⟨r, _, hr⟩ := hp
    exact ⟨(n, v), List.mem_cons_self _ _, r, hr⟩
  have hscan_lt : ∀ p, itemUB (.ScanDir (d ++ [n]) v) p → d ++ [n] < p :=
    fun p hp => lt_of_strictUnder _ p hp
  have hfull_lt : ∀ p, itemUB (.Process d es) p → d ++ [n] < p := by
    intro p hp
    obtain ⟨c, hc, hu⟩ := hp
    exact lt_of_under_names d n c.1 _ p (hnlt c hc) ⟨[], (List.append_nil _).symm⟩ hu
  have hrest_lt : ∀ j ∈ rest, ∀ p, itemUB j p → d ++ [n] < p := by
    intro j hj p hp
    exact hhead j hj (d ++ [n]) p hself hp
  have hwfv : itemWF (.ScanDir (d ++ [n]) v) :=
    hwfc (n, v) (List.mem_cons_self _ _)
  have hinvTail : StackInv (some (d ++ [n])) (.Process d es :: rest) := by
    constructor
    · intro j hj
      rcases List.mem_cons.mp hj with hj | hj
      · subst hj
        exact ⟨⟨(List.pairwise_cons.mp hsort).2,
          fun c hc => hwfc c (List.mem_cons_of_mem _ hc)⟩,
          fun p hp => hfull_lt p hp⟩
      · exact ⟨(hall j (List.mem_cons_of_mem _ hj)).1,
          fun p hp => hrest_lt j hj p hp⟩
    · refine List.pairwise_cons.mpr ⟨?_, htail⟩
      intro j hj p q hp hq
      exact hhead j hj p q (hUBfull p hp) hq
  refine ⟨hboundP (d ++ [n]) hself, ?_, hinvTail, hwfv⟩
  constructor
  · intro j hj
    rcases List.mem_cons.mp hj with hj | hj
    · subst hj
      exact ⟨hwfv, fun p hp => hscan_lt p hp⟩
    · exact ⟨(hinvTail.1 j hj).1, (hinvTail.1 j hj).2⟩
  · refine List.pairwise_cons.mpr ⟨?_, hinvTail.2⟩
    intro j hj p q hp hq
    rcases List.mem_cons.mp hj with hj | hj
    · subst hj
      obtain ⟨c, hc, hu⟩ := hq
      obtain ⟨r, _, hr⟩ := hp
      exact lt_of_under_names d n c.1 p q (hnlt c hc) ⟨r, hr⟩ hu
    · exact hhead j hj p q (hUBscan p hp) hq

/-- Prepending an emitted path that is above the lower bound and below
everything that follows. -/
theorem cons_path_sorted (lo : Option RelPath) (wp : RelPath)
    (ps : List RelPath) (hlo : loLt lo wp) (hs : ps.Pairwise (· < ·))
    (hb : ∀ p ∈ ps, wp < p) :
    (wp :: ps).Pairwise (· < ·) ∧ ∀ q ∈ wp :: ps, loLt lo q := by
  refine ⟨List.pairwise_cons.mpr ⟨hb, hs⟩, ?_⟩
  intro q hq
  rcases List.mem_cons.mp hq with hq | hq
  · rw [hq]; exact hlo
  · cases lo with
    | none => trivial
    | some x => exact lt_trans hlo (hb q hq)

/-- Master lemma for C7: under the stack invariant, the walk emits a
strictly increasing sequence of paths, all above the lower bound.
Requires `dirs ≠ Last` (with after-children emission a directory
surfaces after its own descendants). -/
theorem run_sorted_aux (cfg : WalkBuilder) (hd : cfg.dirs ≠ .Last) :
    ∀ (fuel : Nat) (stack : List WEntry) (lo : Option RelPath),
      StackInv lo stack →
      (okPaths (walk_worker_run cfg fuel stack)).Pairwise (· < ·) ∧
      ∀ p ∈ okPaths (walk_worker_run cfg fuel stack), loLt lo p := by
  intro fuel
  induction fuel with
  | zero =>
    intro stack lo _
    rw [walk_worker_run]
    exact ⟨List.Pairwise.nil, by intro p hp; cases hp⟩
  | succ k ih =>
    intro stack lo hinv
    rw [walk_worker_run]
    match stack with
    | [] =>
      simp only [pump, next_task]
      exact ⟨List.Pairwise.nil, by intro p hp; cases hp⟩
    | .ScanDir d node :: rest =>
      rcases hsd : scan_dir cfg node with e | entries <;>
        simp only [pump, next_task, hsd]
      · exact ⟨List.Pairwise.nil, by intro p hp; cases hp⟩
      · exact ih _ lo (stackInv_scan cfg lo d node rest entries hinv hsd)
    | .Emit w :: rest =>
      obtain ⟨hlo, hinv'⟩ := stackInv_emit lo w rest hinv
      simp only [pump, next_task, if_true]
      obtain ⟨hs, hb⟩ := ih rest (some w.path) hinv'
      rw [okPaths_cons_ok]
      exact cons_path_sorted lo w.path _ hlo hs hb
    | .Process d [] :: rest =>
      simp only [pump, next_task]
      exact ih rest lo (stackInv_tail lo _ rest hinv)
    | .Process d ((n, v) :: es) :: rest =>
      obtain ⟨hlo, hinvScan, hinvTail, hwfv⟩ :=
        stackInv_process lo d n v es rest hinv
      rcases hs : statNode v with e | ⟨ft, sz, mt, ct⟩
      · have hse : scan_entry cfg d n v = .error e := by
          rw [scan_entry, hs, except_bind_error]
        simp only [pump, next_task, hse]
        exact ⟨List.Pairwise.nil, by intro p hp; cases hp⟩
      · by_cases hft : ft = FType.dir
        · rcases hdirs : cfg.dirs with _ | _ | _
          · -- First: emit the directory now, then descend
            have hse : scan_entry cfg d n v =
                .ok (some ⟨d ++ [n], ft, sz, mt, ct⟩, [.ScanDir (d ++ [n]) v]) := by
              rw [scan_entry, hs, except_bind_ok]
              dsimp only
              rw [if_pos hft, hdirs]
              rfl
            simp only [pump, next_task, hse, List.singleton_append, if_true]
            obtain ⟨hsrt, hb⟩ := ih _ (some (d ++ [n])) hinvScan
            rw [okPaths_cons_ok]
            exact cons_path_sorted lo (d ++ [n]) _ hlo hsrt hb
          · exact absurd hdirs hd
          · -- Never: descend without emitting
            have hse : scan_entry cfg d n v =
                .ok (none, [.ScanDir (d ++ [n]) v]) := by
              rw [scan_entry, hs, except_bind_ok]
              dsimp only
              rw [if_pos hft, hdirs]
              rfl
            simp only [pump, next_task, hse, List.singleton_append]
            exact ih _ lo (stackInv_mono lo (d ++ [n]) _ hlo hinvScan)
        · -- plain entry: emit it
          have hse : scan_entry cfg d n v =
              .ok (some ⟨d ++ [n], ft, sz, mt, ct⟩, []) := by
            rw [scan_entry, hs, except_bind_ok]
            dsimp only
            rw [if_neg hft]
          simp only [pump, next_task, hse, List.nil_append, if_true]
          obtain ⟨hsrt, hb⟩ := ih _ (some (d ++ [n])) hinvTail
          rw [okPaths_cons_ok]
          exact cons_path_sorted lo (d ++ [n]) _ hlo hsrt hb

/-- C7 counterexample: with `dirs = Last` a directory's own entry is
emitted after its descendants, so the walk order `[3],[4]` then `[3]` is
not lexicographically increasing. -/
theorem c7_last_emission_not_sorted :
    okPaths (walkList cfgLast 20 exTree) = [[[1]], [[2]], [[3], [4]], [[3]]] ∧
    ¬ (okPaths (walkList cfgLast 20 exTree)).Pairwise (· < ·) := by
  constructor
  · rfl
  · intro h
    have := (List.pairwise_cons.mp
      (List.pairwise_cons.mp (List.pairwise_cons.mp h).2).2).1
      [[3]] (List.mem_cons_self _ _)
    exact absurd this (by decide)

/-- C7 (amended): for every well-formed tree and every configuration
with directory emission `First` or `Never`, the relative paths delivered
by a walk are strictly increasing in segment-wise lexicographic order
(hence duplicate-free).  With `Last` emission this fails (see the
counterexample). -/
theorem walk_paths_sorted (cfg : WalkBuilder) (fuel : Nat) (root : FNode)
    (hwf : root.wfB = true) (hd : cfg.dirs ≠ .Last) :
    (okPaths (walkList cfg fuel root)).Pairwise (· < ·) ∧
    (okPaths (walkList cfg fuel root)).Nodup := by
  have hinv : StackInv none [WEntry.ScanDir [] root] := by
    constructor
    · intro i hi
      rw [List.mem_singleton.mp hi]
      exact ⟨hwf, fun p _ => trivial⟩
    · exact List.pairwise_singleton _ _
  obtain ⟨hs, _⟩ := run_sorted_aux cfg hd fuel [WEntry.ScanDir [] root] none hinv
  exact ⟨hs, hs.imp ne_of_lt⟩

/-- C7 witness: the example tree walked with default (`First`)
emission. -/
theorem walk_paths_sorted_witness :
    exTree.wfB = true ∧ cfgFirst.dirs ≠ .Last ∧
    (okPaths (walkList cfgFirst 20 exTree)).Pairwise (· < ·) :=
  ⟨by decide, by decide,
    (walk_paths_sorted cfgFirst 20 exTree (by decide) (by decide)).1⟩

/-! ## Properties of `mergeUnion` -/

theorem mergeUnion_nil_left (ys : List RelPath) : mergeUnion [] ys = ys := by
  cases ys <;> rw [mergeUnion]

theorem mergeUnion_nil_right (xs : List RelPath) : mergeUnion xs [] = xs := by
  cases xs with
  | nil => rw [mergeUnion]
  | cons x xs =>
    rw [mergeUnion]
    exact fun h => absurd h (by simp)

theorem mergeUnion_cons_cons (x y : RelPath) (xs ys : List RelPath) :
    mergeUnion (x :: xs) (y :: ys) =
      if x < y then x :: mergeUnion xs (y :: ys)
      else if y < x then y :: mergeUnion (x :: xs) ys
      else x :: mergeUnion xs ys := by
  rw [mergeUnion]

theorem mem_mergeUnion (p : RelPath) :
    ∀ (xs ys : List RelPath), p ∈ mergeUnion xs ys ↔ p ∈ xs ∨ p ∈ ys := by
  intro xs
  induction xs with
  | nil => intro ys; rw [mergeUnion_nil_left]; simp
  | cons x xs ihx =>
    intro ys
    induction ys with
    | nil => rw [mergeUnion_nil_right]; simp
    | cons y ys ihy =>
      rw [mergeUnion_cons_cons]
      rcases lt_trichotomy x y with hlt | heq | hgt
      · rw [if_pos hlt]
        simp only [List.mem_cons, ihx (y :: ys), List.mem_cons]
        tauto
      · rw [if_neg (heq ▸ lt_irrefl x), if_neg (heq ▸ lt_irrefl x)]
        subst heq
        simp only [List.mem_cons, ihx ys]
        tauto
      · rw [if_neg (asymm hgt), if_pos hgt]
        simp only [List.mem_cons, ihy]
        tauto

theorem mergeUnion_sorted :
    ∀ (xs ys : List RelPath), xs.Pairwise (· < ·) → ys.Pairwise (· < ·) →
      (mergeUnion xs ys).Pairwise (· < ·) := by
  intro xs
  induction xs with
  | nil => intro ys _ hys; rw [mergeUnion_nil_left]; exact hys
  | cons x xs ihx =>
    intro ys hxs hys
    induction ys with
    | nil => rw [mergeUnion_nil_right]; exact hxs
    | cons y ys ihy =>
      obtain ⟨hxb, hxs'⟩ := List.pairwise_cons.mp hxs
      obtain ⟨hyb, hys'⟩ := List.pairwise_cons.mp hys
      rw [mergeUnion_cons_cons]
      rcases lt_trichotomy x y with hlt | heq | hgt
      · rw [if_pos hlt]
        refine List.pairwise_cons.mpr ⟨?_, ihx (y :: ys) hxs' hys⟩
        intro p hp
        rcases (mem_mergeUnion p xs (y :: ys)).mp hp with hp | hp
        · exact hxb p hp
        · rcases List.mem_cons.mp hp with hp | hp
          · exact hp ▸ hlt
          · exact lt_trans hlt (hyb p hp)
      · rw [if_neg (heq ▸ lt_irrefl x), if_neg (heq ▸ lt_irrefl x)]
        subst heq
        refine List.pairwise_cons.mpr ⟨?_, ihx ys hxs' hys'⟩
        intro p hp
        rcases (mem_mergeUnion p xs ys).mp hp with hp | hp
        · exact hxb p hp
        · exact hyb p hp
      · rw [if_neg (asymm hgt), if_pos hgt]
        refine List.pairwise_cons.mpr ⟨?_, ihy hys'⟩
        intro p hp
        rcases (mem_mergeUnion p (x :: xs) ys).mp hp with hp | hp
        · rcases List.mem_cons.mp hp with hp | hp
          · exact hp ▸ hgt
          · exact lt_trans hgt (hxb p hp)
        · exact hyb p hp

/-! ## Step lemmas for `find_next` on error-free inputs -/

theorem fn_fill_s (cc : Bool) (fs : OpenFS) (a : WalkEntry)
    (sr tr : List (Except Nat WalkEntry)) (tc : Option WalkEntry) :
    find_next cc fs ⟨.ok a :: sr, tr, none, tc⟩ =
      find_next cc fs ⟨sr, tr, some a, tc⟩ := rfl

theorem fn_fill_t (cc : Bool) (fs : OpenFS) (b : WalkEntry)
    (sr tr : List (Except Nat WalkEntry)) (sc : Option WalkEntry) :
    find_next cc fs ⟨sr, .ok b :: tr, sc, none⟩ =
      find_next cc fs ⟨sr, tr, sc, some b⟩ := by
  cases sc <;> rfl

theorem fn_none (cc : Bool) (fs : OpenFS) :
    find_next cc fs ⟨[], [], none, none⟩ = .ok (none, ⟨[], [], none, none⟩) := rfl

theorem fn_added (cc : Bool) (fs : OpenFS) (a : WalkEntry)
    (sr : List (Except Nat WalkEntry)) :
    find_next cc fs ⟨sr, [], some a, none⟩ =
      .ok (some (.Added a), ⟨sr, [], none, none⟩) := rfl

theorem fn_removed (cc : Bool) (fs : OpenFS) (b : WalkEntry)
    (tr : List (Except Nat WalkEntry)) :
    find_next cc fs ⟨[], tr, none, some b⟩ =
      .ok (some (.Removed b), ⟨[], tr, none, none⟩) := rfl

theorem fn_lt (cc : Bool) (fs : OpenFS) (a b : WalkEntry)
    (sr tr : List (Except Nat WalkEntry)) (h : a.path < b.path) :
    find_next cc fs ⟨sr, tr, some a, some b⟩ =
      .ok (some (.Added a), ⟨sr, tr, none, some b⟩) := by
  simp only [find_next, except_bind_ok, Option.map_some']
  rw [if_pos h]

theorem fn_gt (cc : Bool) (fs : OpenFS) (a b : WalkEntry)
    (sr tr : List (Except Nat WalkEntry)) (h : b.path < a.path) :
    find_next cc fs ⟨sr, tr, some a, some b⟩ =
      .ok (some (.Removed b), ⟨sr, tr, some a, none⟩) := by
  simp only [find_next, except_bind_ok, Option.map_some']
  rw [if_neg (asymm h), if_pos h]

/-- A matched pair either fails the content check with an `io::Error` or
produces one entry (of some variant) whose path is the matched path,
consuming both lookaheads. -/
theorem fn_eq (cc : Bool) (fs : OpenFS) (a b : WalkEntry)
    (sr tr : List (Except Nat WalkEntry)) (hp : a.path = b.path) :
    (∃ e, find_next cc fs ⟨sr, tr, some a, some b⟩ = .error e) ∨
    (∃ d, DiffEntry.path d = b.path ∧
      find_next cc fs ⟨sr, tr, some a, some b⟩ =
        .ok (some d, ⟨sr, tr, none, none⟩)) := by
  simp only [find_next, except_bind_ok, Option.map_some']
  rw [hp, if_neg (lt_irrefl _), if_neg (lt_irrefl _)]
  dsimp only
  by_cases hc : b.file_type ≠ a.file_type ∨ b.mtime ≠ a.mtime ∨ b.size ≠ a.size
  · rw [if_pos hc]
    refine Or.inr ⟨_, ?_, rfl⟩
    rfl
  · rw [if_neg hc]
    by_cases hcc : cc = true
    · rw [if_pos hcc]
      rcases hfi : files_are_identical fs b.path a.path with e | idb
      · rw [except_bind_error]
        exact Or.inl ⟨e, rfl⟩
      · rw [except_bind_ok]
        by_cases hid : ¬ idb = true
        · rw [if_pos hid]
          refine Or.inr ⟨_, ?_, rfl⟩
          rfl
        · rw [if_neg hid]
          refine Or.inr ⟨_, ?_, rfl⟩
          rfl
    · rw [if_neg hcc]
      refine Or.inr ⟨_, ?_, rfl⟩
      rfl

theorem okDiffPaths_cons_ok (d : DiffEntry) (xs : List (Except Nat DiffEntry)) :
    okDiffPaths (.ok d :: xs) = DiffEntry.path d :: okDiffPaths xs := rfl

/-- Filling the source lookahead does not change the rest of the run. -/
theorem canon_s (cc : Bool) (fs : OpenFS) (k : Nat) (sc tc : Option WalkEntry)
    (xs : List WalkEntry) (tr : List (Except Nat WalkEntry)) :
    ∃ (sc' : Option WalkEntry) (xs' : List WalkEntry),
      (sc' = none → xs' = []) ∧
      optPaths sc ++ xs.map WalkEntry.path =
        optPaths sc' ++ xs'.map WalkEntry.path ∧
      (optPaths sc').length + xs'.length = (optPaths sc).length + xs.length ∧
      run_diff cc fs (k + 1) ⟨xs.map .ok, tr, sc, tc⟩ =
        run_diff cc fs (k + 1) ⟨xs'.map .ok, tr, sc', tc⟩ := by
  match sc, xs with
  | some a, xs => exact ⟨some a, xs, by simp, rfl, rfl, rfl⟩
  | none, [] => exact ⟨none, [], fun _ => rfl, rfl, rfl, rfl⟩
  | none, x :: xs =>
    refine ⟨some x, xs, by simp, by simp [optPaths],
      by simp only [optPaths, List.length_cons, List.length_singleton,
        List.length_nil]; omega, ?_⟩
    rw [run_diff, run_diff, List.map_cons, fn_fill_s]

/-- Filling the target lookahead does not change the rest of the run. -/
theorem canon_t (cc : Bool) (fs : OpenFS) (k : Nat) (sc tc : Option WalkEntry)
    (ys : List WalkEntry) (sr : List (Except Nat WalkEntry)) :
    ∃ (tc' : Option WalkEntry) (ys' : List WalkEntry),
      (tc' = none → ys' = []) ∧
      optPaths tc ++ ys.map WalkEntry.path =
        optPaths tc' ++ ys'.map WalkEntry.path ∧
      (optPaths tc').length + ys'.length = (optPaths tc).length + ys.length ∧
      run_diff cc fs (k + 1) ⟨sr, ys.map .ok, sc, tc⟩ =
        run_diff cc fs (k + 1) ⟨sr, ys'.map .ok, sc, tc'⟩ := by
  match tc, ys with
  | some b, ys => exact ⟨some b, ys, by simp, rfl, rfl, rfl⟩
  | none, [] => exact ⟨none, [], fun _ => rfl, rfl, rfl, rfl⟩
  | none, y :: ys =>
    refine ⟨some y, ys, by simp, by simp [optPaths],
      by simp only [optPaths, List.length_cons, List.length_singleton,
        List.length_nil]; omega, ?_⟩
    rw [run_diff, run_diff, List.map_cons, fn_fill_t]

/-- Master lemma for C6: on error-free sorted-or-not inputs, a complete
error-free differ run emits exactly the merge of the two path
sequences. -/
theorem run_diff_paths (cc : Bool) (fs : OpenFS) :
    ∀ (fuel : Nat) (sc tc : Option WalkEntry) (xs ys : List WalkEntry),
      (optPaths sc).length + xs.length + (optPaths tc).length + ys.length < fuel →
      (∀ e, Except.error e ∉ run_diff cc fs fuel ⟨xs.map .ok, ys.map .ok, sc, tc⟩) →
      okDiffPaths (run_diff cc fs fuel ⟨xs.map .ok, ys.map .ok, sc, tc⟩) =
        mergeUnion (optPaths sc ++ xs.map WalkEntry.path)
          (optPaths tc ++ ys.map WalkEntry.path) := by
  intro fuel
  induction fuel with
  | zero => intro sc tc xs ys hfuel _; omega
  | succ k ih =>
    intro sc tc xs ys hfuel hok
    obtain ⟨sc', xs', hcs, hps, hms, hrs⟩ :=
      canon_s cc fs k sc tc xs (ys.map .ok)
    rw [hrs] at hok ⊢
    rw [hps]
    obtain ⟨tc', ys', hct, hpt, hmt, hrt⟩ :=
      canon_t cc fs k sc' tc ys (xs'.map .ok)
    rw [hrt] at hok ⊢
    rw [hpt]
    have hfuel' : (optPaths sc').length + xs'.length +
        (optPaths tc').length + ys'.length < k + 1 := by omega
    clear hfuel hps hpt hrs hrt hms hmt
    rcases sc' with _ | a
    · obtain rfl : xs' = [] := hcs rfl
      rcases tc' with _ | b
      · obtain rfl : ys' = [] := hct rfl
        rw [List.map_nil, run_diff, fn_none]
        simp only [optPaths, List.nil_append, List.map_nil]
        rw [mergeUnion_nil_left]
        rfl
      · -- source side exhausted: Removed b, then recurse
        have hrun2 : run_diff cc fs (k + 1)
            ⟨List.map Except.ok [], ys'.map .ok, none, some b⟩ =
            .ok (.Removed b) :: run_diff cc fs k
              ⟨List.map Except.ok [], ys'.map .ok, none, none⟩ := by
          rw [run_diff, List.map_nil, fn_removed]
        rw [List.map_nil] at hrun2 hok ⊢
        rw [hrun2, okDiffPaths_cons_ok]
        have hok' : ∀ e, Except.error e ∉ run_diff cc fs k
            ⟨[], ys'.map .ok, none, none⟩ := by
          intro e he
          exact hok e (by rw [hrun2]; exact List.mem_cons_of_mem _ he)
        have hx := ih none none [] ys'
          (by simp only [optPaths, List.length_nil, List.length_singleton] at hfuel' ⊢; omega)
          (by rw [List.map_nil]; exact hok')
        rw [List.map_nil] at hx
        rw [hx]
        simp only [optPaths, List.nil_append, List.map_nil, List.singleton_append]
        rw [mergeUnion_nil_left, mergeUnion_nil_left]
        rfl
    · rcases tc' with _ | b
      · obtain rfl : ys' = [] := hct rfl
        have hrun : run_diff cc fs (k + 1)
            ⟨xs'.map .ok, List.map Except.ok [], some a, none⟩ =
            .ok (.Added a) :: run_diff cc fs k
              ⟨xs'.map .ok, List.map Except.ok [], none, none⟩ := by
          rw [run_diff, List.map_nil, fn_added]
        rw [List.map_nil] at hrun hok ⊢
        rw [hrun, okDiffPaths_cons_ok]
        have hok' : ∀ e, Except.error e ∉ run_diff cc fs k
            ⟨xs'.map .ok, [], none, none⟩ := by
          intro e he
          exact hok e (by rw [hrun]; exact List.mem_cons_of_mem _ he)
        have hx := ih none none xs' []
          (by simp only [optPaths, List.length_nil, List.length_singleton] at hfuel' ⊢; omega)
          (by rw [List.map_nil]; exact hok')
        rw [List.map_nil] at hx
        rw [hx]
        simp only [optPaths, List.nil_append, List.map_nil, List.singleton_append]
        rw [mergeUnion_nil_right, mergeUnion_nil_right]
        rfl
      · rcases lt_trichotomy a.path b.path with hlt | heq | hgt
        · have hrun : run_diff cc fs (k + 1)
              ⟨xs'.map .ok, ys'.map .ok, some a, some b⟩ =
              .ok (.Added a) :: run_diff cc fs k
                ⟨xs'.map .ok, ys'.map .ok, none, some b⟩ := by
            rw [run_diff, fn_lt cc fs a b _ _ hlt]
          rw [hrun, okDiffPaths_cons_ok]
          have hok' : ∀ e, Except.error e ∉ run_diff cc fs k
              ⟨xs'.map .ok, ys'.map .ok, none, some b⟩ := by
            intro e he
            exact hok e (by rw [hrun]; exact List.mem_cons_of_mem _ he)
          have hx := ih none (some b) xs' ys'
            (by simp only [optPaths, List.length_nil, List.length_singleton] at hfuel' ⊢; omega)
            hok'
          rw [hx]
          simp only [optPaths, List.nil_append, List.singleton_append]
          rw [mergeUnion_cons_cons, if_pos hlt]
          rfl
        · rcases fn_eq cc fs a b (xs'.map .ok) (ys'.map .ok) heq with
            ⟨e, hfe⟩ | ⟨d, hdp, hfe⟩
          · exact absurd
              (by rw [run_diff, hfe]; exact List.mem_cons_self _ _) (hok e)
          · have hrun : run_diff cc fs (k + 1)
                ⟨xs'.map .ok, ys'.map .ok, some a, some b⟩ =
                .ok d :: run_diff cc fs k
                  ⟨xs'.map .ok, ys'.map .ok, none, none⟩ := by
              rw [run_diff, hfe]
            rw [hrun, okDiffPaths_cons_ok]
            have hok' : ∀ e, Except.error e ∉ run_diff cc fs k
                ⟨xs'.map .ok, ys'.map .ok, none, none⟩ := by
              intro e he
              exact hok e (by rw [hrun]; exact List.mem_cons_of_mem _ he)
            have hx := ih none none xs' ys'
              (by simp only [optPaths, List.length_nil, List.length_singleton] at hfuel' ⊢; omega)
              hok'
            rw [hx]
            simp only [optPaths, List.nil_append, List.singleton_append]
            rw [mergeUnion_cons_cons, if_neg (heq ▸ lt_irrefl a.path),
              if_neg (heq ▸ lt_irrefl a.path), hdp, ← heq]
        · have hrun : run_diff cc fs (k + 1)
              ⟨xs'.map .ok, ys'.map .ok, some a, some b⟩ =
              .ok (.Removed b) :: run_diff cc fs k
                ⟨xs'.map .ok, ys'.map .ok, some a, none⟩ := by
            rw [run_diff, fn_gt cc fs a b _ _ hgt]
          rw [hrun, okDiffPaths_cons_ok]
          have hok' : ∀ e, Except.error e ∉ run_diff cc fs k
              ⟨xs'.map .ok, ys'.map .ok, some a, none⟩ := by
            intro e he
            exact hok e (by rw [hrun]; exact List.mem_cons_of_mem _ he)
          have hx := ih (some a) none xs' ys'
            (by simp only [optPaths, List.length_nil, List.length_singleton] at hfuel' ⊢; omega)
            hok'
          rw [hx]
          simp only [optPaths, List.nil_append, List.singleton_append]
          rw [mergeUnion_cons_cons, if_neg (asymm hgt), if_pos hgt]
          rfl

/-- Path lists of mutually exclusive variants are disjoint as soon as
the full path list has no duplicates. -/
theorem variant_disjoint (ds : List DiffEntry)
    (hnd : (ds.map DiffEntry.path).Nodup) (v1 v2 : DiffEntry → Bool)
    (hv : ∀ d, ¬(v1 d = true ∧ v2 d = true)) (p : RelPath) :
    ¬(p ∈ variantPaths v1 ds ∧ p ∈ variantPaths v2 ds) := by
  rintro ⟨h1, h2⟩
  obtain ⟨d1, hd1, hp1⟩ := List.mem_map.mp h1
  obtain ⟨d2, hd2, hp2⟩ := List.mem_map.mp h2
  obtain ⟨hd1m, hd1v⟩ := List.mem_filter.mp hd1
  obtain ⟨hd2m, hd2v⟩ := List.mem_filter.mp hd2
  have heq : d1 = d2 :=
    List.inj_on_of_nodup_map hnd hd1m hd2m (hp1.trans hp2.symm)
  exact hv d1 ⟨hd1v, heq ▸ hd2v⟩

/-- C6: a complete, error-free differ run over two strictly sorted walks
emits exactly one entry per distinct relative path: the emitted path
list is duplicate-free, its members are exactly the union of the two
walks' paths, and the path sets of any two mutually exclusive variants
(Added, Removed, Modified, Present) are disjoint. -/
theorem diff_union_partition (cc : Bool) (fs : OpenFS)
    (xs ys : List WalkEntry) (fuel : Nat)
    (out : List (Except Nat DiffEntry))
    (hout : out = run_diff cc fs fuel (diffStart (xs.map .ok) (ys.map .ok)))
    (hfuel : xs.length + ys.length < fuel)
    (hxs : (xs.map WalkEntry.path).Pairwise (· < ·))
    (hys : (ys.map WalkEntry.path).Pairwise (· < ·))
    (hok : ∀ e, Except.error e ∉ out) :
    (okDiffPaths out).Nodup ∧
    (∀ p, p ∈ okDiffPaths out ↔
      p ∈ xs.map WalkEntry.path ∨ p ∈ ys.map WalkEntry.path) ∧
    ∀ (v1 v2 : DiffEntry → Bool), (∀ d, ¬(v1 d = true ∧ v2 d = true)) →
      ∀ p, ¬(p ∈ variantPaths v1 (okDiff out) ∧
        p ∈ variantPaths v2 (okDiff out)) := by
  subst hout
  rw [diffStart] at *
  have hmain := run_diff_paths cc fs fuel none none xs ys
    (by simpa [optPaths] using hfuel) hok
  simp only [optPaths, List.nil_append] at hmain
  have hsorted : (okDiffPaths (run_diff cc fs fuel
      ⟨xs.map .ok, ys.map .ok, none, none⟩)).Pairwise (· < ·) := by
    rw [hmain]
    exact mergeUnion_sorted _ _ hxs hys
  have hnd : (okDiffPaths (run_diff cc fs fuel
      ⟨xs.map .ok, ys.map .ok, none, none⟩)).Nodup :=
    hsorted.imp ne_of_lt
  refine ⟨hnd, ?_, ?_⟩
  · intro p
    rw [hmain]
    exact mem_mergeUnion p _ _
  · intro v1 v2 hv p
    exact variant_disjoint _ hnd v1 v2 hv p

/-- C6 witness: one source-only file and one target-only file. -/
theorem diff_union_partition_witness :
    ([cwA].map WalkEntry.path).Pairwise (· < ·) ∧
    ([cwC].map WalkEntry.path).Pairwise (· < ·) ∧
    (∀ p, p ∈ okDiffPaths (run_diff false (fun _ => none) 3
        (diffStart ([cwA].map .ok) ([cwC].map .ok))) ↔
      p ∈ [cwA].map WalkEntry.path ∨ p ∈ [cwC].map WalkEntry.path) := by
  have hrun : run_diff false (fun _ => none) 3
      (diffStart ([cwA].map .ok) ([cwC].map .ok)) =
      [.ok (.Added cwA), .ok (.Removed cwC)] := by rfl
  refine ⟨by decide, by decide, ?_⟩
  exact (diff_union_partition false (fun _ => none) [cwA] [cwC] 3 _ rfl
    (by decide) (by decide) (by decide)
    (by intro e he; rw [hrun] at he; simp at he)).2.1

/-- C10 witness: a delivered entry of the example walk. -/
theorem walk_never_emits_root_witness :
    (Except.ok (⟨[[1]], .file, 1, none, none⟩ : WalkEntry) ∈
      walkList cfgFirst 20 exTree) ∧
    ([[1]] : RelPath) ≠ [] :=
  ⟨by decide,
    walk_never_emits_root cfgFirst 20 exTree
      (.ok ⟨[[1]], .file, 1, none, none⟩) (by decide)
      ⟨[[1]], .file, 1, none, none⟩ rfl⟩
